import Mathlib

/-!
Shallow embedding of the `nseindia_reformat` sources: `parse.py` (fixed-width
record decoding and per-symbol partitioning of NSE derivatives feeds) and
`analyze.py` (per-month trade statistics and time resampling).

Raw input lines are modelled as `List Char`; a Python slice `line[a:b]`
becomes `slice`; Python `int(...)` / `float(...)` field parsing becomes
`Option`-valued functions (`none` models the `ValueError` exception);
prices are exact rationals (the source formats them back with `'%.2f'`,
which is value-preserving for the 6+2-digit fields decoded here).
-/

namespace NSE

/-- Python slice `line[a:b]` (half-open, clipped at the end of the list,
as Python slicing is). -/
def slice (l : List Char) (a b : ℕ) : List Char := (l.drop a).take (b - a)

/-- Decimal digit test, expressed on the code point (48 = '0', 57 = '9'). -/
def isDigitChar (c : Char) : Bool := 48 ≤ c.toNat && c.toNat ≤ 57

/-- Value of a decimal digit string (only meaningful when all characters are
digits). -/
def natVal (l : List Char) : ℕ := l.foldl (fun n c => 10 * n + (c.toNat - 48)) 0

/-- Digit-string parse: `some` of the value when the string is a nonempty run
of digits, `none` otherwise. -/
def digitsVal (l : List Char) : Option ℕ :=
  if l ≠ [] ∧ l.all isDigitChar then some (natVal l) else none

/-- Drop every leading occurrence of `c` (the left half of Python
`str.strip(c)`). -/
def stripLeading (c : Char) (l : List Char) : List Char :=
  l.dropWhile (fun x => x = c)

/-- Drop every trailing occurrence of `c` (the right half of Python
`str.strip(c)`). -/
def stripTrailing (c : Char) (l : List Char) : List Char :=
  (l.reverse.dropWhile (fun x => x = c)).reverse

/-- Python `str.strip(c)`: remove the character `c` from both ends. -/
def pyStripChar (c : Char) (l : List Char) : List Char :=
  stripTrailing c (stripLeading c l)

/-- Whitespace stripping as done by Python `int(...)` before parsing (the
feed's fields only ever use the space character as padding). -/
def stripSpaces (l : List Char) : List Char := stripTrailing ' ' (stripLeading ' ' l)

/-- Python `int(str)` on a feed field: optional sign, then a nonempty digit
run; `none` models the `ValueError` raised otherwise. -/
def pyInt (l : List Char) : Option ℤ :=
  match stripSpaces l with
  | '+' :: ds => (digitsVal ds).map (fun n => (n : ℤ))
  | '-' :: ds => (digitsVal ds).map (fun n => -(n : ℤ))
  | ds => (digitsVal ds).map (fun n => (n : ℤ))

/-- Python `float(ip ++ "." ++ fp)` for the feed's two-part decimal fields,
followed by the value-preserving `'%.2f'` formatting: the integer part may
carry leading space padding, the fractional part trailing space padding, and
at least one of the two parts must be nonempty. The value is exact. -/
def pyDecimal (ip fp : List Char) : Option ℚ :=
  let i := stripLeading ' ' ip
  let f := stripTrailing ' ' fp
  if (i.all isDigitChar ∧ f.all isDigitChar) ∧ (i ≠ [] ∨ f ≠ []) then
    some ((natVal i : ℚ) + (natVal f : ℚ) / (10 : ℚ) ^ f.length)
  else none

/-- Month number of a `%b` month abbreviation (the feed uses upper case). -/
def monthNum (m : List Char) : Option ℕ :=
  if m = ['J', 'A', 'N'] then some 1 else
  if m = ['F', 'E', 'B'] then some 2 else
  if m = ['M', 'A', 'R'] then some 3 else
  if m = ['A', 'P', 'R'] then some 4 else
  if m = ['M', 'A', 'Y'] then some 5 else
  if m = ['J', 'U', 'N'] then some 6 else
  if m = ['J', 'U', 'L'] then some 7 else
  if m = ['A', 'U', 'G'] then some 8 else
  if m = ['S', 'E', 'P'] then some 9 else
  if m = ['O', 'C', 'T'] then some 10 else
  if m = ['N', 'O', 'V'] then some 11 else
  if m = ['D', 'E', 'C'] then some 12 else none

def isLeapYear (y : ℕ) : Bool := (y % 4 = 0 && y % 100 ≠ 0) || y % 400 = 0

def daysInMonth (m y : ℕ) : ℕ :=
  if m = 2 then (if isLeapYear y then 29 else 28)
  else if m = 4 ∨ m = 6 ∨ m = 9 ∨ m = 11 then 30 else 31

/-- Python `datetime.strptime(s, '%d%b%Y')` on a 9-byte expiry field,
returning `(month, day, year)`; `none` models the `ValueError` on a
malformed field (including a day out of range for the month). -/
def pyStrptimeExpiry (l : List Char) : Option (ℕ × ℕ × ℕ) :=
  match digitsVal (l.take 2), monthNum ((l.drop 2).take 3), digitsVal (l.drop 5) with
  | some d, some m, some y =>
      if l.length = 9 ∧ 1 ≤ d ∧ d ≤ daysInMonth m y then some (m, d, y) else none
  | _, _, _ => none

/-- Seconds between 1970-01-01 and 1980-01-01 (the source's `time_adjust`). -/
def timeAdjustSec : ℤ := 315532800

/-- A decoded UTC timestamp: the date as a day count since 1970-01-01 (UTC)
and the time of day with microsecond precision — the information content of
the `'%m/%d/%Y'` date and `'%H:%M:%S.%f'` time strings the source emits. -/
structure UTCTimestamp where
  day : ℤ
  hour : ℤ
  minute : ℤ
  second : ℤ
  usec : ℤ
deriving DecidableEq

/-- Timestamp decoding of `parse.py`: a count `j` of jiffies (`1/u` second
units) since 1980-01-01 UTC is converted to fractional seconds, shifted by
the constant 1980→1970 epoch offset, and split into a UTC date and a UTC
time of day with microsecond precision. The sub-microsecond remainder is
truncated (the source goes through a float and CPython's
`utcfromtimestamp`; both land within the claimed resolution).

Modelled from the spec: the jiffie unit `u` is a parameter — this file's
source fixes `u = 65536`, while the spec records historical parsing variants
(not present under `src/`) that used `1/65535` s; the spec asks for the unit
to be configurable. The total is decomposed via `totUsec`, the decoded
instant in whole microseconds since 1970-01-01. -/
def totUsec (u : ℕ) (j : ℤ) : ℤ :=
  (j * 1000000).ediv (u : ℤ) + timeAdjustSec * 1000000

/-- Timestamp decoding proper: the microsecond total split into a UTC day
and a time of day, exactly as the formatted `'%m/%d/%Y'` and
`'%H:%M:%S.%f'` strings carry it. -/
def decodeDateTime (u : ℕ) (j : ℤ) : UTCTimestamp :=
  ⟨(totUsec u j).ediv 86400000000,
   ((totUsec u j).emod 86400000000).ediv 3600000000,
   ((totUsec u j).emod 3600000000).ediv 60000000,
   ((totUsec u j).emod 60000000).ediv 1000000,
   (totUsec u j).emod 1000000⟩

/-- The UTC instant a decoded timestamp denotes, in microseconds since
1970-01-01 (recombining date and time of day). -/
def toInstantUsec (t : UTCTimestamp) : ℤ :=
  t.day * 86400000000 + t.hour * 3600000000 + t.minute * 60000000 +
    t.second * 1000000 + t.usec

/-- The instant encoded by `j` jiffies of `1/u` s since 1980-01-01, in
seconds since 1970-01-01, as an exact rational. -/
def transSecQ (u j : ℕ) : ℚ := (j : ℚ) / (u : ℚ) + 315532800

/-- The instant a decoded timestamp denotes, in seconds, as a rational. -/
def instantQ (t : UTCTimestamp) : ℚ := ((toInstantUsec t : ℤ) : ℚ) / 1000000

/-- Outcome of decoding one raw record: a decoded row, a silent drop by the
instrument filter (`continue` in the source), or a raised exception. -/
inductive ParseOutcome (ρ : Type) where
  | ok (row : ρ)
  | dropped
  | err
deriving DecidableEq

def isOk {ρ : Type} : ParseOutcome ρ → Bool
  | .ok _ => true
  | _ => false

def isDropped {ρ : Type} : ParseOutcome ρ → Bool
  | .dropped => true
  | _ => false

def isErr {ρ : Type} : ParseOutcome ρ → Bool
  | .err => true
  | _ => false

/-- The run of leading `c` characters removed by `str.strip(c)`. -/
def leadChars (c : Char) (l : List Char) : List Char := l.takeWhile (fun x => x = c)

/-- The run of trailing `c` characters removed by `str.strip(c)`. -/
def trailChars (c : Char) (l : List Char) : List Char :=
  ((l.dropWhile (fun x => x = c)).reverse.takeWhile (fun x => x = c)).reverse

/-- The two instrument codes the source retains. -/
def futs : List (List Char) :=
  [['F', 'U', 'T', 'I', 'D', 'X'], ['F', 'U', 'T', 'S', 'T', 'K']]

/-- A decoded order record, field for field as `parse_orders_data` builds its
CSV row (undecoded fields stay raw character lists). -/
structure OrderRow where
  record_indicator : List Char
  segment : List Char
  order_number : List Char
  trans_stamp : UTCTimestamp
  buy_sell_indicator : List Char
  activity_type : List Char
  symbol : List Char
  instrument : List Char
  expiry : ℕ × ℕ × ℕ
  strike_price : ℤ
  option_type : List Char
  volume_disclosed : ℤ
  volume_original : ℤ
  limit_price : ℚ
  trigger_price : ℚ
  mkt_flag : List Char
  on_stop_flag : List Char
  io_flag : List Char
  spread_comb_type : List Char
  algo_ind : List Char
  client_id_flag : List Char
deriving DecidableEq

/-- Decoding of one raw order line, mirroring the loop body of
`parse_orders_data` statement for statement: the timestamp field is parsed
(and can raise) before the instrument filter runs; `instrument ∉ futs`
yields `dropped`; afterwards the remaining fields are decoded, any of which
can raise. The jiffie unit is the source's 65536. -/
def parse_orders_record (line : List Char) : ParseOutcome OrderRow :=
  match pyInt (slice line 22 36) with
  | none => .err
  | some j =>
    if slice line 48 54 ∈ futs then
      match pyStrptimeExpiry (slice line 54 63), pyInt (slice line 63 71),
            pyInt (slice line 73 81), pyInt (slice line 81 89),
            pyDecimal (slice line 89 95) (slice line 95 97),
            pyDecimal (slice line 97 105) (slice line 103 105) with
      | some e, some strike, some vd, some vo, some lp, some tp =>
        .ok ⟨slice line 0 2, slice line 2 6, slice line 6 22,
             decodeDateTime 65536 j,
             slice line 36 37, slice line 37 38,
             pyStripChar 'b' (slice line 38 48),
             slice line 48 54, e, strike, slice line 71 73, vd, vo, lp, tp,
             slice line 105 106, slice line 106 107, slice line 107 108,
             slice line 108 109, slice line 109 110, slice line 110 111⟩
      | _, _, _, _, _, _ => .err
    else .dropped

/-- The symbol column of a decoded order outcome (meaningful on `ok`). -/
def symbolOf : ParseOutcome OrderRow → List Char
  | .ok r => r.symbol
  | _ => []

/-- The limit-price column of a decoded order outcome (meaningful on `ok`). -/
def limitOf : ParseOutcome OrderRow → ℚ
  | .ok r => r.limit_price
  | _ => 0

/-- The trigger-price column of a decoded order outcome (meaningful on
`ok`). -/
def triggerOf : ParseOutcome OrderRow → ℚ
  | .ok r => r.trigger_price
  | _ => 0

/-- A decoded trade record, field for field as `parse_trades_data` builds
its CSV row. -/
structure TradeRow where
  record_indicator : List Char
  segment : List Char
  trade_number : List Char
  trade_stamp : UTCTimestamp
  symbol : List Char
  instrument : List Char
  expiry : ℕ × ℕ × ℕ
  strike_price : ℚ
  option_type : List Char
  trade_price : ℚ
  trade_quantity : ℤ
  buy_order_num : List Char
  buy_algo_ind : List Char
  buy_client_id_flag : List Char
  sell_order_num : List Char
  sell_algo_ind : List Char
  sell_client_id_flag : List Char
deriving DecidableEq

/-- Decoding of one raw trade line, mirroring the loop body of
`parse_trades_data`. -/
def parse_trades_record (line : List Char) : ParseOutcome TradeRow :=
  match pyInt (slice line 22 36) with
  | none => .err
  | some j =>
    if slice line 46 52 ∈ futs then
      match pyStrptimeExpiry (slice line 52 61),
            pyDecimal (slice line 61 67) (slice line 67 69),
            pyDecimal (slice line 71 77) (slice line 77 79),
            pyInt (slice line 79 87) with
      | some e, some sp, some tp, some q =>
        .ok ⟨slice line 0 2, slice line 2 6, slice line 6 22,
             decodeDateTime 65536 j,
             pyStripChar 'b' (slice line 36 46), slice line 46 52, e, sp,
             slice line 69 71, tp, q,
             slice line 87 103, slice line 103 104, slice line 104 105,
             slice line 105 121, slice line 121 122, slice line 122 123⟩
      | _, _, _, _ => .err
    else .dropped

/-- Result of one run of the order partitioner over a stream of lines.
Each sink is recorded as `(symbol, closed?)`: `closed? = true` exactly when
the source's final `for symbol in db.keys(): db[symbol]['handle'].close()`
loop ran for it. -/
inductive RunResult where
  | finished (sinks : List (List Char × Bool))
  | failed (sinks : List (List Char × Bool))
deriving DecidableEq

/-- The partitioning loop of `parse_orders_data` over a whole input stream,
with `db` the list of symbols whose sinks are currently open (opened lazily
on first encounter). A decode exception propagates out of the `with` block,
so the close loop after it never runs on that path (`failed`, sinks left
open); normal exhaustion of the stream reaches the close loop (`finished`,
all sinks closed). -/
def parse_orders_data : List (List Char) → List (List Char) → RunResult
  | [], db => .finished (db.map (fun s => (s, true)))
  | line :: rest, db =>
    match parse_orders_record line with
    | .err => .failed (db.map (fun s => (s, false)))
    | .dropped => parse_orders_data rest db
    | .ok row =>
        parse_orders_data rest (if row.symbol ∈ db then db else db ++ [row.symbol])

/-- Claim-side description of every sink's final state: all closed on normal
completion, all left open after a decode error. -/
def sinksDisposition : RunResult → Bool
  | .finished s => s.all (fun p => p.2)
  | .failed s => s.all (fun p => !p.2)

/-- A syntactically valid FUTIDX order line (111 bytes) used to exercise the
decoder on its success path. -/
def lineGood : List Char :=
  ("00" ++ "0000" ++ "0000000000000001" ++ "00067000000000" ++ "B" ++ "1" ++
   "NIFTYZZZZZ" ++ "FUTIDX" ++ "27DEC2012" ++ "00000000" ++ "XX" ++
   "00000100" ++ "00000200" ++ "001234" ++ "56" ++ "00078912" ++ "YNNSAC").data

/-- Like `lineGood` but with a space-padded symbol field. -/
def linePad : List Char :=
  ("00" ++ "0000" ++ "0000000000000001" ++ "00067000000000" ++ "B" ++ "1" ++
   "NIFTY     " ++ "FUTIDX" ++ "27DEC2012" ++ "00000000" ++ "XX" ++
   "00000100" ++ "00000200" ++ "001234" ++ "56" ++ "00078912" ++ "YNNSAC").data

/-- A line of garbage: its timestamp field fails `int(...)` and its
instrument field is not a futures code. -/
def lineBadTs : List Char := List.replicate 111 'X'

/-- The symbol post-processing as the spec words it: the 10-byte symbol
field with its trailing padding stripped. Stated from the spec for
comparison with the source's `strip('b')`. -/
def stripTrailingPad (l : List Char) : List Char := stripTrailing ' ' l

/-! ### The analysis stage (`analyze.py`)

A parsed trade as `analyze` consumes it: the calendar day within the
reference month (modelling the `'09/%02i/2012'` date strings, whose
lexicographic order agrees with the numeric day order within one month),
the full timestamp in integer nanoseconds (modelling the
`trade_date_time` column), the trade quantity and the trade price. -/

structure TradeRec where
  date : ℕ
  time : ℤ
  qty : ℕ
  price : ℚ
deriving DecidableEq

def insertLeNat (x : ℕ) : List ℕ → List ℕ
  | [] => [x]
  | y :: ys => if x ≤ y then x :: y :: ys else y :: insertLeNat x ys

/-- Ascending insertion sort on day keys (pandas `groupby` sorts its keys). -/
def sortNat (l : List ℕ) : List ℕ := l.foldr insertLeNat []

/-- The group keys of `df.groupby('trade_date')`: distinct days, ascending. -/
def groupDates (trades : List TradeRec) : List ℕ :=
  sortNat (trades.map TradeRec.date).dedup

/-- The rows of one `groupby` group, in original stream order. -/
def groupRows (trades : List TradeRec) (d : ℕ) : List TradeRec :=
  trades.filter (fun r => r.date = d)

/-- pandas `Series.diff()`: a leading null, then consecutive differences. -/
def seriesDiff : List ℤ → List (Option ℤ)
  | [] => []
  | x :: rest => none :: List.zipWith (fun b a => some (b - a)) rest (x :: rest)

/-- The concatenated per-day `diff()` series
(`df.groupby('trade_date')['trade_date_time'].apply(lambda x: x.diff())`),
nulls included. -/
def interWithNulls (trades : List TradeRec) : List (Option ℤ) :=
  ((groupDates trades).map
    (fun d => seriesDiff ((groupRows trades d).map TradeRec.time))).flatten

/-- The pooled interarrival gaps in nanoseconds after
`s_inter_time[s_inter_time.notnull()]`. -/
def interPooledNs (trades : List TradeRec) : List ℤ :=
  (interWithNulls trades).filterMap id

/-- The pooled gaps converted from nanoseconds to seconds. -/
def interSecs (trades : List TradeRec) : List ℚ :=
  (interPooledNs trades).map (fun n => (n : ℚ) / 1000000000)

def insertLeQ (x : ℚ) : List ℚ → List ℚ
  | [] => [x]
  | y :: ys => if x ≤ y then x :: y :: ys else y :: insertLeQ x ys

def sortQ (l : List ℚ) : List ℚ := l.foldr insertLeQ []

/-- pandas `Series.quantile(q)` with the default linear interpolation:
position `h = q*(n-1)` in the sorted values, interpolating between the
neighbouring order statistics. -/
def quantileLin (xs : List ℚ) (q : ℚ) : ℚ :=
  let s := sortQ xs
  let n := s.length
  let h : ℚ := q * ((n : ℚ) - 1)
  let i : ℕ := (⌊h⌋).toNat
  let lo := s.getD i 0
  let hi := s.getD (min (i + 1) (n - 1)) 0
  lo + (h - (i : ℚ)) * (hi - lo)

/-- The three interarrival quartiles `analyze` reports: quantiles of the
pooled per-day gaps in seconds when any gap exists, `(0, 0, 0)` otherwise. -/
def interQuartiles (trades : List TradeRec) : ℚ × ℚ × ℚ :=
  if 0 < (interPooledNs trades).length then
    (quantileLin (interSecs trades) (1 / 4), quantileLin (interSecs trades) (1 / 2),
     quantileLin (interSecs trades) (3 / 4))
  else (0, 0, 0)

/-- Specification-side form of the pool: per calendar day, consecutive
timestamp differences of that day's trades with the first (undefined) gap
dropped — both trades of every gap come from the same day's group. -/
def dayGaps (trades : List TradeRec) (d : ℕ) : List ℤ :=
  let ts := (groupRows trades d).map TradeRec.time
  List.zipWith (fun b a => b - a) ts.tail ts

def pooledGaps (trades : List TradeRec) : List ℤ :=
  ((groupDates trades).map (dayGaps trades)).flatten

/-- The reference calendar: the business days of September 2012 that
`analyze` hard-codes (`sept_days`). -/
def septDays : List ℕ :=
  [3, 4, 5, 6, 7, 10, 11, 12, 13, 14, 17, 18, 19, 20, 21, 24, 25, 26, 27, 28]

/-- Daily traded volume per day with trades
(`df.groupby('trade_date')['trade_quantity'].apply(sum)`). -/
def s_daily_vol (trades : List TradeRec) : List (ℕ × ℕ) :=
  (groupDates trades).map (fun d => (d, ((groupRows trades d).map TradeRec.qty).sum))

/-- pandas `DataFrame.combine_first` for two frames that carry the default
positional row index and have no nulls in `a`: rows of `a` win at the index
labels they occupy, and the remaining rows of `b` (labels `≥ a.length`) are
appended. This alignment is by row position, not by the `trade_date`
column. -/
def combineFirst {β : Type} (a b : List β) : List β := a ++ b.drop a.length

/-- The daily-volume table after the zero-fill step of `analyze`. -/
def df_daily_vol_filled (trades : List TradeRec) : List (ℕ × ℕ) :=
  combineFirst (s_daily_vol trades) (septDays.map (fun d => (d, 0)))

/-- The `df[['trade_date', 'trade_price']]` projection: one row per trade. -/
def df_price (trades : List TradeRec) : List (ℕ × ℚ) :=
  trades.map (fun r => (r.date, r.price))

/-- The per-trade price table after the zero-fill step of `analyze`. -/
def df_price_filled (trades : List TradeRec) : List (ℕ × ℚ) :=
  combineFirst (df_price trades) (septDays.map (fun d => (d, 0)))

/-- The group keys of `df_price.groupby('trade_date')` after the fill. -/
def priceDates (trades : List TradeRec) : List ℕ :=
  sortNat ((df_price_filled trades).map Prod.fst).dedup

def listMaxQ : List ℚ → ℚ
  | [] => 0
  | x :: xs => xs.foldl max x

def listMinQ : List ℚ → ℚ
  | [] => 0
  | x :: xs => xs.foldl min x

/-- The prices grouped under day `d` in the filled price table. -/
def dayPrices (trades : List TradeRec) (d : ℕ) : List ℚ :=
  ((df_price_filled trades).filter (fun p => p.1 = d)).map Prod.snd

/-- The price of the very first row of the file (`df.ix[0]['trade_price']`);
`analyze` reads it unconditionally, so it is only meaningful for a nonempty
stream. -/
def firstPrice : List TradeRec → ℚ
  | [] => 0
  | r :: _ => r.price

/-- Python `int(x)` on a float/rational: truncation toward zero. -/
def truncQ (x : ℚ) : ℤ := if 0 ≤ x then ⌊x⌋ else ⌈x⌉

/-- `daily_price_max_list`: per group day, `10000 * int(max - first)`. -/
def daily_price_max_list (trades : List TradeRec) : List ℤ :=
  (priceDates trades).map
    (fun d => 10000 * truncQ (listMaxQ (dayPrices trades d) - firstPrice trades))

/-- `daily_price_min_list`: per group day, `10000 * int(min - first)`. -/
def daily_price_min_list (trades : List TradeRec) : List ℤ :=
  (priceDates trades).map
    (fun d => 10000 * truncQ (listMinQ (dayPrices trades d) - firstPrice trades))

/-! ### The resampler (`sample` in `analyze.py`)

One trading day's observations are `(timestamp, value)` pairs with the
timestamp in seconds into the day; the sampling grid runs from 09:15:00 to
15:30:00 (the constants the source builds from the first observation's
date). -/

section Resampler

variable {α : Type}

/-- 09:15:00 as seconds into the day. -/
def marketOpen : ℕ := 33300

/-- 15:30:00 as seconds into the day. -/
def marketClose : ℕ := 55800

/-- The body of the sampling-grid loop, structurally recursive on a fuel
argument so that it computes by kernel reduction; `gridFrom` supplies fuel
that is always sufficient, so the fuel-exhausted branch is unreachable
there. -/
def gridFromAux (tEnd delta : ℕ) : ℕ → ℕ → List ℕ
  | 0, _ => []
  | fuel + 1, t =>
    if 0 < delta ∧ t ≤ tEnd then t :: gridFromAux tEnd delta fuel (t + delta) else []

/-- The sampling grid: `t, t+delta, ...` while `≤ tEnd` (the source's
`while t <= t_end: ... t += delta`; a zero `delta` loops forever in the
source and is outside this model, which returns `[]` for it). -/
def gridFrom (tEnd delta t : ℕ) : List ℕ := gridFromAux tEnd delta (tEnd + 1 - t) t

/-- The body of the inner cursor loop, structurally recursive on a fuel
argument; `advanceObs` supplies fuel that is always sufficient. -/
def advanceObsAux (obs : List (ℕ × α)) (t : ℕ) : ℕ → ℕ → α → ℕ × α
  | 0, i, last => (i, last)
  | fuel + 1, i, last =>
    if h : i < obs.length then
      if (obs.get ⟨i, h⟩).1 ≤ t then advanceObsAux obs t fuel (i + 1) (obs.get ⟨i, h⟩).2
      else (i, last)
    else (i, last)

/-- The inner cursor loop of `sample`: advance `i` over the observations
while the current observation's timestamp is `≤ t`, keeping the last value
passed. -/
def advanceObs (obs : List (ℕ × α)) (t : ℕ) (i : ℕ) (last : α) : ℕ × α :=
  advanceObsAux obs t (obs.length - i) i last

/-- The grid loop of `sample`: for each grid time append the grid time and
the currently carried value, advancing the cursor only once the column
minimum `minT` has been passed. -/
def sampleCore (obs : List (ℕ × α)) (minT : ℕ) : List ℕ → ℕ → α → List (ℕ × α)
  | [], _, _ => []
  | t :: ts, i, last =>
    if minT ≤ t then
      (t, (advanceObs obs t i last).2) ::
        sampleCore obs minT ts (advanceObs obs t i last).1 (advanceObs obs t i last).2
    else (t, last) :: sampleCore obs minT ts i last

/-- `sample` of `analyze.py` on one day's series: `none` models the
`df.irow(0)` failure on an empty series (the guard that would return an
empty result is commented out in the source); otherwise the carried value
is seeded from the first observation and the grid is walked with the
two-cursor loop. -/
def sample (obs : List (ℕ × α)) (delta : ℕ) : Option (List (ℕ × α)) :=
  match obs with
  | [] => none
  | (t0, v0) :: rest =>
      some (sampleCore ((t0, v0) :: rest) (rest.foldl (fun m p => min m p.1) t0)
              (gridFrom marketClose delta marketOpen) 0 v0)

/-- Number of observations with timestamp `≤ t`. -/
def cntLe (obs : List (ℕ × α)) (t : ℕ) : ℕ :=
  (obs.filter (fun p => p.1 ≤ t)).length

/-- Specification-side carried value at grid time `t`: the value of the last
observation with timestamp `≤ t`, and the seed `v0` (the first observation's
value) when no observation has occurred yet. -/
def carriedValue (obs : List (ℕ × α)) (v0 : α) (t : ℕ) : α :=
  ((obs.filter (fun p => p.1 ≤ t)).map Prod.snd).getLastD v0

end Resampler

/-! ## Theorems -/

section ResamplerProofs

variable {α : Type}

lemma cntLe_cons (p : ℕ × α) (l : List (ℕ × α)) (t : ℕ) :
    cntLe (p :: l) t = if p.1 ≤ t then cntLe l t + 1 else cntLe l t := by
  by_cases hp : p.1 ≤ t
  · simp [cntLe, List.filter_cons, hp]
  · simp [cntLe, List.filter_cons, hp]

lemma cntLe_eq_zero {l : List (ℕ × α)} {t : ℕ} (h : ∀ p ∈ l, ¬ p.1 ≤ t) :
    cntLe l t = 0 := by
  induction l with
  | nil => rfl
  | cons p ps ih =>
      rw [cntLe_cons, if_neg (h p (List.mem_cons_self p ps))]
      exact ih (fun q hq => h q (List.mem_cons_of_mem p hq))

lemma cntLe_le_length (obs : List (ℕ × α)) (t : ℕ) : cntLe obs t ≤ obs.length :=
  List.length_filter_le _ _

lemma get_fst_le_iff {obs : List (ℕ × α)} (hs : obs.Pairwise (fun a b => a.1 ≤ b.1))
    (t : ℕ) : ∀ j (hj : j < obs.length), ((obs.get ⟨j, hj⟩).1 ≤ t ↔ j < cntLe obs t) := by
  induction obs with
  | nil => intro j hj; simp at hj
  | cons p ps ih =>
      rw [List.pairwise_cons] at hs
      intro j hj
      cases j with
      | zero =>
          show p.1 ≤ t ↔ 0 < cntLe (p :: ps) t
          rw [cntLe_cons]
          by_cases hp : p.1 ≤ t
          · simp [hp]
          · rw [if_neg hp, cntLe_eq_zero (fun q hq hqt => hp (le_trans (hs.1 q hq) hqt))]
            simp [hp]
      | succ k =>
          have hk : k < ps.length := by simpa using hj
          show (ps.get ⟨k, hk⟩).1 ≤ t ↔ k + 1 < cntLe (p :: ps) t
          rw [cntLe_cons]
          by_cases hp : p.1 ≤ t
          · rw [if_pos hp, ih hs.2 k hk]
            omega
          · rw [if_neg hp, cntLe_eq_zero (fun q hq hqt => hp (le_trans (hs.1 q hq) hqt))]
            have hnot : ¬ (ps.get ⟨k, hk⟩).1 ≤ t :=
              fun hqt => hp (le_trans (hs.1 _ (ps.get_mem k hk)) hqt)
            exact ⟨fun hle => absurd hle hnot, fun hlt => absurd hlt (by omega)⟩

lemma filter_le_eq_take {obs : List (ℕ × α)} (hs : obs.Pairwise (fun a b => a.1 ≤ b.1))
    (t : ℕ) : obs.filter (fun p => p.1 ≤ t) = obs.take (cntLe obs t) := by
  induction obs with
  | nil => rfl
  | cons p ps ih =>
      rw [List.pairwise_cons] at hs
      by_cases hp : p.1 ≤ t
      · rw [cntLe_cons, if_pos hp, List.filter_cons, if_pos (decide_eq_true hp),
          List.take_succ_cons, ih hs.2]
      · have hz : cntLe ps t = 0 :=
          cntLe_eq_zero (fun q hq hqt => hp (le_trans (hs.1 q hq) hqt))
        have hnil : ps.filter (fun p => p.1 ≤ t) = [] := List.length_eq_zero.mp hz
        rw [cntLe_cons, if_neg hp, hz, List.filter_cons, if_neg (by simp [hp]),
          List.take_zero, hnil]

lemma getD_eq_get (l : List (ℕ × α)) (d0 : ℕ × α) :
    ∀ (n : ℕ) (h : n < l.length), l.getD n d0 = l.get ⟨n, h⟩ := by
  induction l with
  | nil => intro n h; simp at h
  | cons x xs ih =>
      intro n h
      cases n with
      | zero => rfl
      | succ k => exact ih k (by simpa using h)

lemma getLastD_map_take :
    ∀ (l : List (ℕ × α)) (n : ℕ) (v0 : α) (d0 : ℕ × α), 0 < n → n ≤ l.length →
      ((l.take n).map Prod.snd).getLastD v0 = (l.getD (n - 1) d0).2 := by
  intro l
  induction l with
  | nil => intro n v0 d0 h1 h2; simp at h2; omega
  | cons x xs ih =>
      intro n v0 d0 h1 h2
      cases n with
      | zero => omega
      | succ m =>
          cases m with
          | zero => simp
          | succ k =>
              rw [List.take_succ_cons, List.map_cons, List.getLastD_cons,
                ih (k + 1) x.2 d0 (by omega) (by simpa using h2)]
              simp

lemma carriedValue_eq_getD {obs : List (ℕ × α)}
    (hs : obs.Pairwise (fun a b => a.1 ≤ b.1)) (t : ℕ) (v0 : α) (d0 : ℕ × α)
    (h0 : 0 < cntLe obs t) :
    carriedValue obs v0 t = (obs.getD (cntLe obs t - 1) d0).2 := by
  unfold carriedValue
  rw [filter_le_eq_take hs t]
  exact getLastD_map_take obs (cntLe obs t) v0 d0 h0 (cntLe_le_length obs t)

lemma carriedValue_eq_v0 {obs : List (ℕ × α)} {t : ℕ} (v0 : α)
    (h : cntLe obs t = 0) : carriedValue obs v0 t = v0 := by
  unfold carriedValue
  unfold cntLe at h
  simp [List.length_eq_zero.mp h]

lemma cntLe_mono (obs : List (ℕ × α)) {t t' : ℕ} (h : t ≤ t') :
    cntLe obs t ≤ cntLe obs t' := by
  induction obs with
  | nil => exact le_refl _
  | cons p ps ih =>
      rw [cntLe_cons, cntLe_cons]
      by_cases hp : p.1 ≤ t
      · rw [if_pos hp, if_pos (le_trans hp h)]
        omega
      · rw [if_neg hp]
        split
        · omega
        · omega

lemma advanceObsAux_spec {obs : List (ℕ × α)} (hs : obs.Pairwise (fun a b => a.1 ≤ b.1))
    (t : ℕ) (d0 : ℕ × α) :
    ∀ (fuel i : ℕ) (last : α), obs.length - i ≤ fuel → i ≤ cntLe obs t →
      advanceObsAux obs t fuel i last =
        (cntLe obs t,
         if i = cntLe obs t then last else (obs.getD (cntLe obs t - 1) d0).2) := by
  intro fuel
  induction fuel with
  | zero =>
      intro i last hfuel hi
      have hc := cntLe_le_length obs t
      have hie : i = cntLe obs t := by omega
      simp [advanceObsAux, hie]
  | succ f ih =>
      intro i last hfuel hi
      by_cases hlen : i < obs.length
      · simp only [advanceObsAux]
        rw [dif_pos hlen]
        by_cases hle : (obs.get ⟨i, hlen⟩).1 ≤ t
        · rw [if_pos hle]
          have hic : i < cntLe obs t := (get_fst_le_iff hs t i hlen).mp hle
          rw [ih (i + 1) _ (by omega) (by omega)]
          by_cases h2 : i + 1 = cntLe obs t
          · rw [if_pos h2, if_neg (by omega)]
            have hgd : obs.getD (cntLe obs t - 1) d0 = obs.get ⟨i, hlen⟩ := by
              have he : cntLe obs t - 1 = i := by omega
              rw [he]
              exact getD_eq_get obs d0 i hlen
            rw [hgd]
          · rw [if_neg h2, if_neg (by omega)]
        · rw [if_neg hle]
          have hnot : ¬ i < cntLe obs t :=
            fun hc => hle ((get_fst_le_iff hs t i hlen).mpr hc)
          have hie : i = cntLe obs t := by omega
          simp [hie]
      · simp only [advanceObsAux]
        rw [dif_neg hlen]
        have hc := cntLe_le_length obs t
        have hie : i = cntLe obs t := by omega
        simp [hie]

lemma advanceObs_spec {obs : List (ℕ × α)} (hs : obs.Pairwise (fun a b => a.1 ≤ b.1))
    (t : ℕ) (d0 : ℕ × α) (i : ℕ) (last : α) (hi : i ≤ cntLe obs t) :
    advanceObs obs t i last =
      (cntLe obs t,
       if i = cntLe obs t then last else (obs.getD (cntLe obs t - 1) d0).2) :=
  advanceObsAux_spec hs t d0 (obs.length - i) i last (le_refl _) hi

lemma gridFromAux_ge (tEnd delta : ℕ) :
    ∀ (fuel t : ℕ), ∀ s ∈ gridFromAux tEnd delta fuel t, t ≤ s := by
  intro fuel
  induction fuel with
  | zero => intro t s hmem; simp [gridFromAux] at hmem
  | succ f ih =>
      intro t s hmem
      simp only [gridFromAux] at hmem
      split at hmem
      · rcases List.mem_cons.mp hmem with h | h
        · omega
        · have := ih (t + delta) s h
          omega
      · simp at hmem

lemma gridFromAux_pairwise (tEnd delta : ℕ) :
    ∀ (fuel t : ℕ), (gridFromAux tEnd delta fuel t).Pairwise (· ≤ ·) := by
  intro fuel
  induction fuel with
  | zero => intro t; exact List.Pairwise.nil
  | succ f ih =>
      intro t
      simp only [gridFromAux]
      split
      · rw [List.pairwise_cons]
        refine ⟨fun s hs' => ?_, ih (t + delta)⟩
        have := gridFromAux_ge tEnd delta f (t + delta) s hs'
        omega
      · exact List.Pairwise.nil

lemma foldl_min_head (t0 : ℕ) :
    ∀ (l : List (ℕ × α)), (∀ p ∈ l, t0 ≤ p.1) →
      l.foldl (fun m p => min m p.1) t0 = t0 := by
  intro l
  induction l with
  | nil => intro _; rfl
  | cons p ps ih =>
      intro h
      rw [List.foldl_cons, min_eq_left (h p (List.mem_cons_self p ps))]
      exact ih (fun q hq => h q (List.mem_cons_of_mem p hq))

lemma sampleCore_spec (t0 : ℕ) (v0 : α) (rest : List (ℕ × α))
    (hs : ((t0, v0) :: rest).Pairwise (fun a b => a.1 ≤ b.1)) :
    ∀ (ts : List ℕ), ts.Pairwise (· ≤ ·) → ∀ (i : ℕ) (last : α),
      ((i = 0 ∧ last = v0) ∨
        (∃ b, (∀ s ∈ ts, b ≤ s) ∧ i = cntLe ((t0, v0) :: rest) b ∧ 0 < i ∧
          last = (((t0, v0) :: rest).getD (i - 1) (t0, v0)).2)) →
      sampleCore ((t0, v0) :: rest) t0 ts i last =
        ts.map (fun s => (s, carriedValue ((t0, v0) :: rest) v0 s)) := by
  intro ts
  induction ts with
  | nil => intro _ i last _; rfl
  | cons t ts ih =>
      intro hpw i last hinv
      rw [List.pairwise_cons] at hpw
      rcases hinv with ⟨hi0, hlast⟩ | ⟨b, hb, hib, hipos, hlast⟩
      · subst hi0
        rw [hlast]
        by_cases hmt : t0 ≤ t
        · have h0c : 0 < cntLe ((t0, v0) :: rest) t :=
            (get_fst_le_iff hs t 0 (by simp)).mp hmt
          simp only [sampleCore]
          rw [if_pos hmt, advanceObs_spec hs t ((t0, v0)) 0 v0 (Nat.zero_le _)]
          dsimp only
          rw [if_neg (by omega), List.map_cons]
          congr 1
          · rw [carriedValue_eq_getD hs t v0 ((t0, v0)) h0c]
          · apply ih hpw.2
            right
            exact ⟨t, hpw.1, rfl, h0c, rfl⟩
        · have hz : cntLe ((t0, v0) :: rest) t = 0 := by
            apply cntLe_eq_zero
            intro q hq hqt
            rcases List.mem_cons.mp hq with h | h
            · rw [h] at hqt
              exact hmt hqt
            · exact hmt (le_trans ((List.pairwise_cons.mp hs).1 q h) hqt)
          simp only [sampleCore]
          rw [if_neg hmt, List.map_cons]
          congr 1
          · rw [carriedValue_eq_v0 v0 hz]
          · apply ih hpw.2
            left
            exact ⟨rfl, rfl⟩
      · have hbt : b ≤ t := hb t (List.mem_cons_self t ts)
        have h0b : 0 < cntLe ((t0, v0) :: rest) b := hib ▸ hipos
        have ht0b : t0 ≤ b := (get_fst_le_iff hs b 0 (by simp)).mpr h0b
        have hmt : t0 ≤ t := le_trans ht0b hbt
        have hi_le : i ≤ cntLe ((t0, v0) :: rest) t := by
          rw [hib]
          exact cntLe_mono _ hbt
        have h0t : 0 < cntLe ((t0, v0) :: rest) t := lt_of_lt_of_le hipos hi_le
        simp only [sampleCore]
        rw [if_pos hmt, advanceObs_spec hs t ((t0, v0)) i last hi_le]
        dsimp only
        have hsnd : (if i = cntLe ((t0, v0) :: rest) t then last
            else (((t0, v0) :: rest).getD (cntLe ((t0, v0) :: rest) t - 1) (t0, v0)).2) =
            (((t0, v0) :: rest).getD (cntLe ((t0, v0) :: rest) t - 1) (t0, v0)).2 := by
          by_cases h2 : i = cntLe ((t0, v0) :: rest) t
          · rw [if_pos h2, hlast, h2]
          · rw [if_neg h2]
        rw [hsnd, List.map_cons]
        congr 1
        · rw [carriedValue_eq_getD hs t v0 ((t0, v0)) h0t]
        · apply ih hpw.2
          right
          exact ⟨t, hpw.1, rfl, h0t, rfl⟩

lemma gridFrom_pairwise (tEnd delta t : ℕ) :
    (gridFrom tEnd delta t).Pairwise (· ≤ ·) :=
  gridFromAux_pairwise tEnd delta (tEnd + 1 - t) t

end ResamplerProofs

/-- C1: on a non-empty, time-ordered one-day series, the resampler returns
one sample per grid timestamp from the day's open (09:15) to close (15:30)
spaced by the interval, and the value carried at each grid timestamp `s` is
that of the most recent observation with timestamp ≤ `s`, with every grid
timestamp earlier than the first observation carrying the first
observation's value (the pre-open seeding); in particular a one-observation
series yields one sample per grid point, all carrying that value. -/
theorem sample_grid_forward_fill {α : Type} (t0 : ℕ) (v0 : α) (rest : List (ℕ × α))
    (delta : ℕ) (hdelta : 0 < delta)
    (hs : ((t0, v0) :: rest).Pairwise (fun a b => a.1 ≤ b.1)) :
    sample ((t0, v0) :: rest) delta =
      some ((gridFrom marketClose delta marketOpen).map
        (fun s => (s, carriedValue ((t0, v0) :: rest) v0 s))) := by
  simp only [sample]
  rw [foldl_min_head t0 rest (List.pairwise_cons.mp hs).1,
    sampleCore_spec t0 v0 rest hs (gridFrom marketClose delta marketOpen)
      (gridFrom_pairwise marketClose delta marketOpen) 0 v0 (Or.inl ⟨rfl, rfl⟩)]

/-- C1 (witness): the forward-fill law evaluated on a one-observation series
sampled on the full 126-point 3-minute grid — every sample carries the one
observed value. -/
theorem sample_grid_forward_fill_check :
    0 < 180 ∧
    ([((34000 : ℕ), (7 : ℕ))]).Pairwise (fun a b => a.1 ≤ b.1) ∧
    sample [((34000 : ℕ), (7 : ℕ))] 180 =
      some ((gridFrom marketClose 180 marketOpen).map
        (fun s => (s, carriedValue [((34000 : ℕ), (7 : ℕ))] 7 s))) :=
  ⟨by decide, by decide, sample_grid_forward_fill 34000 7 [] 180 (by decide) (by decide)⟩

/-- C10: calling the resampler on an empty series for a day does not return
a result — the disabled guard would have returned an empty result, but as
the source stands the access to the first observation fails, so the
error branch is taken exactly on the empty series and non-emptiness of the
input is the precondition under which it is unreachable. -/
theorem sample_requires_nonempty {α : Type} (obs : List (ℕ × α)) (delta : ℕ) :
    (sample obs delta).isNone = obs.isEmpty := by
  cases obs with
  | nil => rfl
  | cons p rest => cases p; rfl

/-- C9 (amended): every sink opened during a run is closed when the input
stream is exhausted normally, but on early termination caused by a decode
error the close loop is skipped and every sink opened so far is left open. -/
theorem sink_close_discipline (lines : List (List Char)) (db : List (List Char)) :
    sinksDisposition (parse_orders_data lines db) = true := by
  induction lines generalizing db with
  | nil =>
      simp [parse_orders_data, sinksDisposition, List.all_map, Function.comp]
  | cons line rest ih =>
      cases hp : parse_orders_record line with
      | err =>
          simp [parse_orders_data, hp, sinksDisposition, List.all_map, Function.comp]
      | dropped => simpa [parse_orders_data, hp] using ih db
      | ok row => simpa [parse_orders_data, hp] using ih _

/-- C9 (counterexample): a run that opens one sink on a valid record and
then hits a decode error ends with that sink not closed, contradicting the
claim that every exit path closes all sinks. -/
theorem sinks_left_open_cex :
    parse_orders_data [lineGood, lineBadTs] [] =
      RunResult.failed [(("NIFTYZZZZZ").data, false)] := by decide

/-- C3 (code bug): on a trade stream whose only trade falls on 09/28, the
`combine_first` zero-fill aligns on the positional row index, so the
calendar day 09/03 never enters the daily-volume table while 09/28 appears
twice — the set of days over which the volume statistics are taken is not
the complete reference calendar, contrary to both the claim and the
source's own comment. -/
theorem daily_vol_fill_in_bug :
    3 ∈ septDays ∧
    3 ∉ (df_daily_vol_filled [⟨28, 0, 5, 100⟩]).map Prod.fst ∧
    List.count 28 ((df_daily_vol_filled [⟨28, 0, 5, 100⟩]).map Prod.fst) = 2 := by
  decide

/-- C4 (code bug): on a trade stream whose only trade falls on 09/28, the
positional `combine_first` fill leaves the daily price extremes with 19
entries instead of one per calendar day (09/03 is missing), and pollutes
the traded day 09/28 with a spurious zero price (its daily minimum becomes
0 rather than the trade price). -/
theorem daily_price_fill_in_bug :
    septDays.length = 20 ∧
    (daily_price_max_list [⟨28, 0, 5, 100⟩]).length = 19 ∧
    3 ∈ septDays ∧
    3 ∉ priceDates [⟨28, 0, 5, 100⟩] ∧
    listMinQ (dayPrices [⟨28, 0, 5, 100⟩] 28) = 0 := by
  decide

/-- C6 (counterexample): a record whose instrument field is not a futures
code but whose timestamp field does not parse makes the decoder raise
before the instrument filter runs — the outcome is an error, not
`Dropped`, refuting the claim for arbitrary other fields. -/
theorem instrument_filter_cex :
    decide (slice lineBadTs 48 54 ∈ futs) = false ∧
    isDropped (parse_orders_record lineBadTs) = false ∧
    isErr (parse_orders_record lineBadTs) = true := by decide

/-- C6 (amended): for every raw record whose timestamp field parses as an
integer, the decoder drops the record exactly when the instrument field is
neither FUTIDX nor FUTSTK (orders read it from bytes [48,54), trades from
[46,52)); records with a futures instrument are never dropped. -/
theorem instrument_filter_total (line : List Char)
    (hts : (pyInt (slice line 22 36)).isSome = true) :
    isDropped (parse_orders_record line) = !(decide (slice line 48 54 ∈ futs)) ∧
    isDropped (parse_trades_record line) = !(decide (slice line 46 52 ∈ futs)) := by
  obtain ⟨j, hj⟩ := Option.isSome_iff_exists.mp hts
  constructor
  · by_cases hmem : slice line 48 54 ∈ futs
    · simp only [parse_orders_record, hj, if_pos hmem, decide_eq_true hmem, Bool.not_true]
      split <;> rfl
    · simp only [parse_orders_record, hj, if_neg hmem, decide_eq_false hmem, Bool.not_false]
      rfl
  · by_cases hmem : slice line 46 52 ∈ futs
    · simp only [parse_trades_record, hj, if_pos hmem, decide_eq_true hmem, Bool.not_true]
      split <;> rfl
    · simp only [parse_trades_record, hj, if_neg hmem, decide_eq_false hmem, Bool.not_false]
      rfl

lemma filterMap_zipWith_some (l1 l2 : List ℤ) :
    (List.zipWith (fun b a => some (b - a)) l1 l2).filterMap id =
      List.zipWith (fun b a => b - a) l1 l2 := by
  induction l1 generalizing l2 with
  | nil => rfl
  | cons x xs ih =>
      cases l2 with
      | nil => rfl
      | cons y ys => simp [List.filterMap_cons, ih]

lemma filterMap_seriesDiff (xs : List ℤ) :
    (seriesDiff xs).filterMap id = List.zipWith (fun b a => b - a) xs.tail xs := by
  cases xs with
  | nil => rfl
  | cons x rest => simp [seriesDiff, List.filterMap_cons, filterMap_zipWith_some]

lemma interPooledNs_eq (trades : List TradeRec) :
    interPooledNs trades = pooledGaps trades := by
  unfold interPooledNs interWithNulls pooledGaps
  induction groupDates trades with
  | nil => rfl
  | cons d ds ih =>
      simp only [List.map_cons, List.flatten_cons, List.filterMap_append, ih,
        filterMap_seriesDiff, dayGaps]

/-- C5: the pooled interarrival gaps are exactly the per-calendar-day
consecutive timestamp differences with the first (undefined) gap of each
day dropped — every gap is formed inside one day's group, so no gap spans
two days — and the three reported values are the 25th/50th/75th
percentiles of that pool in seconds, all three falling back to 0 when the
pool is empty. -/
theorem interarrival_gaps_per_day (trades : List TradeRec) :
    interPooledNs trades = pooledGaps trades ∧
    interQuartiles trades =
      (if pooledGaps trades = [] then ((0 : ℚ), (0 : ℚ), (0 : ℚ))
       else
        (quantileLin ((pooledGaps trades).map (fun n => (n : ℚ) / 1000000000)) (1 / 4),
         quantileLin ((pooledGaps trades).map (fun n => (n : ℚ) / 1000000000)) (1 / 2),
         quantileLin ((pooledGaps trades).map (fun n => (n : ℚ) / 1000000000)) (3 / 4))) := by
  refine ⟨interPooledNs_eq trades, ?_⟩
  unfold interQuartiles interSecs
  rw [interPooledNs_eq trades]
  by_cases hempty : pooledGaps trades = []
  · rw [if_pos hempty, if_neg (by simp [hempty])]
  · rw [if_neg hempty, if_pos (List.length_pos.mpr hempty)]

lemma toInstantUsec_decode (u : ℕ) (j : ℤ) :
    toInstantUsec (decodeDateTime u j) = totUsec u j := by
  unfold toInstantUsec decodeDateTime
  dsimp only
  generalize totUsec u j = tot
  have h1 : 86400000000 * (tot.ediv 86400000000) + tot.emod 86400000000 = tot :=
    Int.ediv_add_emod tot 86400000000
  have h2 : 3600000000 * ((tot.emod 86400000000).ediv 3600000000) +
      (tot.emod 86400000000).emod 3600000000 = tot.emod 86400000000 :=
    Int.ediv_add_emod (tot.emod 86400000000) 3600000000
  have h3 : (tot.emod 86400000000).emod 3600000000 = tot.emod 3600000000 :=
    Int.emod_emod_of_dvd tot ⟨24, by norm_num⟩
  have h4 : 60000000 * ((tot.emod 3600000000).ediv 60000000) +
      (tot.emod 3600000000).emod 60000000 = tot.emod 3600000000 :=
    Int.ediv_add_emod (tot.emod 3600000000) 60000000
  have h5 : (tot.emod 3600000000).emod 60000000 = tot.emod 60000000 :=
    Int.emod_emod_of_dvd tot ⟨60, by norm_num⟩
  have h6 : 1000000 * ((tot.emod 60000000).ediv 1000000) +
      (tot.emod 60000000).emod 1000000 = tot.emod 60000000 :=
    Int.ediv_add_emod (tot.emod 60000000) 1000000
  have h7 : (tot.emod 60000000).emod 1000000 = tot.emod 1000000 :=
    Int.emod_emod_of_dvd tot ⟨60, by norm_num⟩
  linarith

/-- C2: decoding the jiffie-count timestamp is deterministic, and the
decoded UTC date and time of day recombine to the encoded UTC instant
(jiffies converted to fractional seconds plus the constant 1980→1970
offset) to within the time unit's resolution `1/u`, for either configured
epoch-unit variant `u = 65536` or `u = 65535`; the decoded time of day
carries microsecond precision, so the truncation error is in fact below
one microsecond. -/
theorem decode_timestamp_roundtrip (u j : ℕ) (hu : u = 65536 ∨ u = 65535) :
    decodeDateTime u (j : ℤ) = decodeDateTime u (j : ℤ) ∧
    0 ≤ transSecQ u j - instantQ (decodeDateTime u (j : ℤ)) ∧
    transSecQ u j - instantQ (decodeDateTime u (j : ℤ)) < 1 / (u : ℚ) := by
  have hu0 : 0 < u := by rcases hu with h | h <;> omega
  have huz : ((u : ℤ)) ≠ 0 := by exact_mod_cast hu0.ne'
  have huQ : ((u : ℚ)) ≠ 0 := by exact_mod_cast hu0.ne'
  have huQ0 : (0 : ℚ) < (u : ℚ) := by exact_mod_cast hu0
  set q : ℤ := (j : ℤ) * 1000000 with hq
  have hdm : (u : ℤ) * (q.ediv (u : ℤ)) + q.emod (u : ℤ) = q := Int.ediv_add_emod q (u : ℤ)
  have hr0 : 0 ≤ q.emod (u : ℤ) := Int.emod_nonneg q huz
  have hru : q.emod (u : ℤ) < (u : ℤ) := Int.emod_lt_of_pos q (by exact_mod_cast hu0)
  have hkey : transSecQ u j - instantQ (decodeDateTime u (j : ℤ)) =
      ((q.emod (u : ℤ) : ℤ) : ℚ) / ((u : ℚ) * 1000000) := by
    unfold transSecQ instantQ
    rw [toInstantUsec_decode]
    unfold totUsec timeAdjustSec
    have hcast : (u : ℚ) * ((q.ediv (u : ℤ) : ℤ) : ℚ) + ((q.emod (u : ℤ) : ℤ) : ℚ) =
        (j : ℚ) * 1000000 := by
      exact_mod_cast hdm
    field_simp
    ring_nf
    ring_nf at hcast
    linarith [hcast]
  refine ⟨rfl, ?_, ?_⟩
  · rw [hkey]
    apply div_nonneg
    · exact_mod_cast hr0
    · positivity
  · rw [hkey, div_lt_div_iff₀ (by positivity) huQ0]
    have hr6 : q.emod (u : ℤ) < 1000000 := by rcases hu with h | h <;> omega
    have hr6Q : ((q.emod (u : ℤ) : ℤ) : ℚ) < 1000000 := by exact_mod_cast hr6
    nlinarith [huQ0, hr6Q]

/-- C2 (witness): the round-trip bound evaluated at the 65536-variant on a
concrete jiffie count. -/
theorem decode_timestamp_roundtrip_check :
    ((65536 : ℕ) = 65536 ∨ (65536 : ℕ) = 65535) ∧
    (decodeDateTime 65536 ((123456789 : ℕ) : ℤ) = decodeDateTime 65536 ((123456789 : ℕ) : ℤ) ∧
     0 ≤ transSecQ 65536 123456789 - instantQ (decodeDateTime 65536 ((123456789 : ℕ) : ℤ)) ∧
     transSecQ 65536 123456789 - instantQ (decodeDateTime 65536 ((123456789 : ℕ) : ℤ)) <
       1 / ((65536 : ℕ) : ℚ)) :=
  ⟨Or.inl rfl, decode_timestamp_roundtrip 65536 123456789 (Or.inl rfl)⟩

lemma natVal_def (l : List Char) :
    natVal l = l.foldl (fun m c => 10 * m + (c.toNat - 48)) 0 := rfl

lemma natVal_foldl (b : List Char) : ∀ n : ℕ,
    b.foldl (fun m c => 10 * m + (c.toNat - 48)) n = n * 10 ^ b.length + natVal b := by
  induction b with
  | nil => intro n; simp [natVal]
  | cons c cs ih =>
      intro n
      rw [List.foldl_cons, ih, natVal_def (c :: cs), List.foldl_cons, ih,
        List.length_cons]
      ring

lemma natVal_cons (c : Char) (cs : List Char) :
    natVal (c :: cs) = (c.toNat - 48) * 10 ^ cs.length + natVal cs := by
  rw [natVal_def (c :: cs), List.foldl_cons, natVal_foldl]
  norm_num

lemma natVal_append (a b : List Char) :
    natVal (a ++ b) = natVal a * 10 ^ b.length + natVal b := by
  rw [natVal_def (a ++ b), List.foldl_append, natVal_foldl, ← natVal_def a]

lemma natVal_lt_pow (l : List Char) (h : l.all isDigitChar = true) :
    natVal l < 10 ^ l.length := by
  induction l with
  | nil => norm_num [natVal]
  | cons c cs ih =>
      rw [List.all_cons, Bool.and_eq_true] at h
      have hd9 : c.toNat - 48 ≤ 9 := by
        have hc := h.1
        unfold isDigitChar at hc
        rw [Bool.and_eq_true, decide_eq_true_eq, decide_eq_true_eq] at hc
        omega
      have h1 := ih h.2
      have h2 : (c.toNat - 48) * 10 ^ cs.length ≤ 9 * 10 ^ cs.length :=
        Nat.mul_le_mul_right _ hd9
      rw [natVal_cons, List.length_cons, pow_succ]
      linarith

lemma all_drop {p : Char → Bool} (l : List Char) (k : ℕ) (h : l.all p = true) :
    (l.drop k).all p = true := by
  rw [List.all_eq_true] at h ⊢
  intro x hx
  exact h x (List.mem_of_mem_drop hx)

lemma natVal_drop (l : List Char) (k : ℕ) (h : l.all isDigitChar = true) :
    natVal (l.drop k) = natVal l % 10 ^ (l.length - k) := by
  have hsplit : natVal l = natVal (l.take k) * 10 ^ (l.length - k) + natVal (l.drop k) := by
    conv_lhs => rw [← List.take_append_drop k l]
    rw [natVal_append, List.length_drop]
  rw [hsplit, mul_comm (natVal (l.take k)) ((10 : ℕ) ^ (l.length - k)), Nat.mul_add_mod]
  exact (Nat.mod_eq_of_lt
    (by simpa [List.length_drop] using natVal_lt_pow _ (all_drop l k h))).symm

lemma dropWhile_space_of_digits (l : List Char) (h : l.all isDigitChar = true) :
    l.dropWhile (fun x => x = ' ') = l := by
  cases l with
  | nil => rfl
  | cons c cs =>
      rw [List.all_cons, Bool.and_eq_true] at h
      have hc : ¬ (c = ' ') := by
        intro hEq
        subst hEq
        have := h.1
        simp [isDigitChar] at this
      simp [List.dropWhile_cons, hc]

lemma stripLeading_digits (l : List Char) (h : l.all isDigitChar = true) :
    stripLeading ' ' l = l :=
  dropWhile_space_of_digits l h

lemma stripTrailing_digits (l : List Char) (h : l.all isDigitChar = true) :
    stripTrailing ' ' l = l := by
  unfold stripTrailing
  rw [dropWhile_space_of_digits l.reverse (by rwa [List.all_reverse]),
    List.reverse_reverse]

lemma pyDecimal_digits (ip fp : List Char) (h1 : ip.all isDigitChar = true)
    (h2 : fp.all isDigitChar = true) (hne : ip ≠ []) :
    pyDecimal ip fp =
      some ((natVal ip : ℚ) + (natVal fp : ℚ) / (10 : ℚ) ^ fp.length) := by
  unfold pyDecimal
  simp only [stripLeading_digits ip h1, stripTrailing_digits fp h2]
  rw [if_pos ⟨⟨h1, h2⟩, Or.inl hne⟩]

lemma slice_length (l : List Char) (a b : ℕ) (h : b ≤ l.length) :
    (slice l a b).length = b - a := by
  unfold slice
  rw [List.length_take, List.length_drop]
  omega

lemma parse_orders_ok_fields (line : List Char) (row : OrderRow)
    (h : parse_orders_record line = ParseOutcome.ok row) :
    row.symbol = pyStripChar 'b' (slice line 38 48) ∧
    pyDecimal (slice line 89 95) (slice line 95 97) = some row.limit_price ∧
    pyDecimal (slice line 97 105) (slice line 103 105) = some row.trigger_price := by
  unfold parse_orders_record at h
  split at h
  · exact absurd h (by simp)
  · split at h
    · split at h
      · rename_i e strike vd vo lp tp he hst hvd hvo hlp htp
        rw [ParseOutcome.ok.injEq] at h
        subst h
        exact ⟨rfl, hlp, htp⟩
      · exact absurd h (by simp)
    · exact absurd h (by simp)

/-- C7: for every order record that the decoder accepts, with digit-filled
price fields, the decoded limit price is the decimal number whose integer
part is the 6-byte field at bytes [89,95) and whose fractional part is the
2-byte field at bytes [95,97), while the decoded trigger price reads its
fractional part from bytes [103,105) — the last two bytes of its own
8-byte integer field [97,105), so its fractional part always equals its
integer part modulo 100; the overlapping read is preserved exactly. -/
theorem order_price_fields (line : List Char) (hlen : 105 ≤ line.length)
    (h1 : (slice line 89 95).all isDigitChar = true)
    (h2 : (slice line 95 97).all isDigitChar = true)
    (h3 : (slice line 97 105).all isDigitChar = true)
    (hok : isOk (parse_orders_record line) = true) :
    limitOf (parse_orders_record line) =
      (natVal (slice line 89 95) : ℚ) + (natVal (slice line 95 97) : ℚ) / 100 ∧
    triggerOf (parse_orders_record line) =
      (natVal (slice line 97 105) : ℚ) +
        ((natVal (slice line 97 105) % 100 : ℕ) : ℚ) / 100 := by
  have l2 : (slice line 95 97).length = 2 := slice_length line 95 97 (by omega)
  have l3 : (slice line 97 105).length = 8 := slice_length line 97 105 hlen
  have hdrop : slice line 103 105 = (slice line 97 105).drop 6 := by
    unfold slice
    rw [List.drop_take, List.drop_drop]
  cases hp : parse_orders_record line with
  | dropped => rw [hp] at hok; simp [isOk] at hok
  | err => rw [hp] at hok; simp [isOk] at hok
  | ok row =>
      obtain ⟨_, hlp, htp⟩ := parse_orders_ok_fields line row hp
      constructor
      · rw [pyDecimal_digits _ _ h1 h2 (by
            intro hnil
            have := slice_length line 89 95 (by omega)
            rw [hnil] at this
            simp at this)] at hlp
        rw [Option.some_inj] at hlp
        show row.limit_price = _
        rw [← hlp, l2]
        norm_num
      · rw [hdrop] at htp
        rw [pyDecimal_digits _ _ h3 (all_drop _ 6 h3) (by
            intro hnil
            rw [hnil] at l3
            simp at l3)] at htp
        rw [Option.some_inj] at htp
        show row.trigger_price = _
        rw [← htp, natVal_drop _ 6 h3, List.length_drop, l3]
        norm_num

/-- C7 (witness): the price-field law evaluated on a concrete valid FUTIDX
order line (limit 1234.56 from "001234"/"56", trigger 78912.12 from
"00078912" with its last two bytes re-read as the fraction). -/
theorem order_price_fields_check :
    (105 ≤ lineGood.length ∧
     (slice lineGood 89 95).all isDigitChar = true ∧
     (slice lineGood 95 97).all isDigitChar = true ∧
     (slice lineGood 97 105).all isDigitChar = true ∧
     isOk (parse_orders_record lineGood) = true) ∧
    (limitOf (parse_orders_record lineGood) =
       (natVal (slice lineGood 89 95) : ℚ) + (natVal (slice lineGood 95 97) : ℚ) / 100 ∧
     triggerOf (parse_orders_record lineGood) =
       (natVal (slice lineGood 97 105) : ℚ) +
         ((natVal (slice lineGood 97 105) % 100 : ℕ) : ℚ) / 100) :=
  ⟨⟨by decide, by decide, by decide, by decide, by decide⟩,
   order_price_fields lineGood (by decide) (by decide) (by decide) (by decide) (by decide)⟩

lemma all_takeWhile {p : Char → Bool} (l : List Char) :
    (l.takeWhile p).all p = true := by
  induction l with
  | nil => rfl
  | cons c cs ih =>
      by_cases hc : p c
      · simp [List.takeWhile_cons, hc, ih]
      · simp [List.takeWhile_cons, hc]

lemma all_trailChars (c : Char) (l : List Char) :
    (trailChars c l).all (fun x => x = c) = true := by
  unfold trailChars
  rw [List.all_reverse]
  exact all_takeWhile _

lemma strip_decomposition (c : Char) (l : List Char) :
    leadChars c l ++ pyStripChar c l ++ trailChars c l = l := by
  rw [List.append_assoc]
  have hmid : pyStripChar c l ++ trailChars c l = l.dropWhile (fun x => x = c) := by
    unfold pyStripChar trailChars stripLeading stripTrailing
    rw [← List.reverse_append, List.takeWhile_append_dropWhile, List.reverse_reverse]
  rw [hmid]
  unfold leadChars
  exact List.takeWhile_append_dropWhile _ _

/-- C8 (counterexample): on an accepted record whose 10-byte symbol field is
"NIFTY" followed by five spaces, the source's `strip('b')` keeps the
padding — the decoded symbol is not the field with its trailing padding
stripped, refuting the claim. -/
theorem symbol_strip_cex :
    isOk (parse_orders_record linePad) = true ∧
    stripTrailingPad (slice linePad 38 48) = ['N', 'I', 'F', 'T', 'Y'] ∧
    symbolOf (parse_orders_record linePad) =
      ['N', 'I', 'F', 'T', 'Y', ' ', ' ', ' ', ' ', ' '] ∧
    symbolOf (parse_orders_record linePad) ≠ stripTrailingPad (slice linePad 38 48) := by
  decide

/-- C8 (amended): the decoded symbol is the 10-byte symbol field with its
leading and trailing runs of the character 'b' removed (Python
`strip('b')`), so the field splits as a 'b'-run, the decoded symbol, and a
'b'-run — every kept character, including any space padding, is preserved
unchanged. -/
theorem symbol_strip_b (line : List Char)
    (hok : isOk (parse_orders_record line) = true) :
    symbolOf (parse_orders_record line) = pyStripChar 'b' (slice line 38 48) ∧
    leadChars 'b' (slice line 38 48) ++ symbolOf (parse_orders_record line) ++
        trailChars 'b' (slice line 38 48) = slice line 38 48 ∧
    (leadChars 'b' (slice line 38 48)).all (fun x => x = 'b') = true ∧
    (trailChars 'b' (slice line 38 48)).all (fun x => x = 'b') = true := by
  cases hp : parse_orders_record line with
  | dropped => rw [hp] at hok; simp [isOk] at hok
  | err => rw [hp] at hok; simp [isOk] at hok
  | ok row =>
      obtain ⟨hsym, _, _⟩ := parse_orders_ok_fields line row hp
      refine ⟨hsym, ?_, all_takeWhile _, all_trailChars _ _⟩
      show leadChars 'b' (slice line 38 48) ++ row.symbol ++
          trailChars 'b' (slice line 38 48) = slice line 38 48
      rw [hsym]
      exact strip_decomposition ('b') (slice line 38 48)

/-- C8 (witness): the amended symbol law evaluated on the space-padded
concrete line. -/
theorem symbol_strip_b_check :
    isOk (parse_orders_record linePad) = true ∧
    (symbolOf (parse_orders_record linePad) = pyStripChar 'b' (slice linePad 38 48) ∧
     leadChars 'b' (slice linePad 38 48) ++ symbolOf (parse_orders_record linePad) ++
        trailChars 'b' (slice linePad 38 48) = slice linePad 38 48 ∧
     (leadChars 'b' (slice linePad 38 48)).all (fun x => x = 'b') = true ∧
     (trailChars 'b' (slice linePad 38 48)).all (fun x => x = 'b') = true) :=
  ⟨by decide, symbol_strip_b linePad (by decide)⟩

/-- C6 (witness): the amended filter law evaluated on a concrete valid
FUTIDX order line. -/
theorem instrument_filter_total_check :
    (pyInt (slice lineGood 22 36)).isSome = true ∧
    (isDropped (parse_orders_record lineGood) = !(decide (slice lineGood 48 54 ∈ futs)) ∧
     isDropped (parse_trades_record lineGood) = !(decide (slice lineGood 46 52 ∈ futs))) :=
  ⟨by decide, instrument_filter_total lineGood (by decide)⟩

end NSE
